import Mathlib

/-!
Verification of the page-serving layer of the notebook application
(source: src/app_improvements.py).

The development shallowly embeds the three decision-making pieces of the
source file:

* `buildPageConfig` embeds `NotebookBaseHandler.get_page_config`,
* `treeGet` embeds `TreeHandler.get`,
* `customCssGet` embeds `CustomCssHandler.get`.

Values stored in the page-config mapping are modelled by the JSON-like
type `Value`; a Python `dict` is modelled as an insertion-ordered
association list with Python assignment (`setKey`) and lookup
(`lookupKey`) semantics.

Helper functions that the source imports from outside the repository
(jupyter_server's `url_path_join` / `url_escape` / `url_is_absolute`,
jupyterlab_server's `_camelCase` / `is_url` / `recursive_update` /
`get_page_config`, `os.path.relpath`) are not part of the repository;
following the specification they are either modelled from the
specification's description (each such definition carries a doc comment
saying so) or kept abstract as fields of the environment `Env`.
-/

namespace AppImprovements

/-- JSON-like values stored in a page-config mapping: strings, booleans
and nested mappings (insertion-ordered association lists). -/
inductive Value where
  | str (s : String)
  | bool (b : Bool)
  | dict (entries : List (String × Value))

/-- A page-config mapping: an insertion-ordered association list,
modelling a Python `dict`. -/
abbrev ConfigDict := List (String × Value)

/-- Lookup of a key in a mapping (first match), modelling `d[k]` /
`d.get(k)` on a Python `dict`. -/
def lookupKey : ConfigDict → String → Option Value
  | [], _ => none
  | (k, v) :: rest, key => if k = key then some v else lookupKey rest key

/-- Python `dict` assignment `d[k] = v`: an existing key keeps its
position and gets the new value; a new key is appended at the end. -/
def setKey : ConfigDict → String → Value → ConfigDict
  | [], key, v => [(key, v)]
  | (k, w) :: rest, key, v =>
      if k = key then (key, v) :: rest else (k, w) :: setKey rest key v

/-- Boolean prefix test on character lists (used to model Python's
`str.startswith` and the anchored regex match of the source). -/
def isPrefixList : List Char → List Char → Bool
  | [], _ => true
  | _ :: _, [] => false
  | a :: as, b :: bs => a == b && isPrefixList as bs

/-- Python `s.startswith(pre)`. -/
def startsWithStr (s pre : String) : Bool :=
  isPrefixList pre.toList s.toList

/-- Python `s.endswith(suf)`. -/
def endsWithStr (s suf : String) : Bool :=
  isPrefixList suf.toList.reverse s.toList.reverse

/-- Python `str.split(sep)` on character lists (empty segments are
preserved, as in Python). -/
def splitOnChar (sep : Char) : List Char → List (List Char)
  | [] => [[]]
  | c :: rest =>
      match splitOnChar sep rest with
      | [] => if c = sep then [[], []] else [[c]]
      | h :: t => if c = sep then [] :: h :: t else (c :: h) :: t

/-- Python `s.strip("/")`: drop all leading and trailing slashes. -/
def stripSlashes (s : String) : String :=
  String.mk (((s.toList.dropWhile (fun c => c = '/')).reverse.dropWhile
    (fun c => c = '/')).reverse)

/-- Modelled from the spec: the UrlResolver join of URL fragments
(the source imports `url_path_join` from jupyter_server, which is not
part of this repository).  Fragments are joined with single slashes,
empty fragments are dropped, and an initial slash of the first fragment
and a final slash of the last fragment are preserved. -/
def ujoin (pieces : List String) : String :=
  match pieces with
  | [] => ""
  | p :: rest =>
      let initial := startsWithStr p "/"
      let final := endsWithStr (List.getLastD rest p) "/"
      let stripped := (p :: rest).map stripSlashes
      let body := String.intercalate "/" (stripped.filter (fun s => !s.isEmpty))
      let r1 := if initial then "/" ++ body else body
      let r2 := if final then r1 ++ "/" else r1
      if r2 = "//" then "/" else r2

/-- Modelled from the spec: URL-escaping of a path, segment by segment
(the source imports `url_escape` from jupyter_server, which is not part
of this repository).  The escaping of a single segment is kept abstract
as the function argument `quote`. -/
def url_escape (quote : String → String) (path : String) : String :=
  String.intercalate "/"
    ((splitOnChar '/' path.toList).map (fun seg => quote (String.mk seg)))

/-- Capitalize the first character of a word. -/
def capitalizeW : List Char → List Char
  | [] => []
  | c :: cs => c.toUpper :: cs

/-- Modelled from the spec: camelCase conversion of snake_case trait
names (the source imports `_camelCase` from jupyterlab_server, which is
not part of this repository): split on underscores, capitalize each
word, then lowercase the first character of the result. -/
def camelCase (s : String) : String :=
  let ws := (splitOnChar '_' s.toList).filter (fun w => !w.isEmpty)
  match (ws.map capitalizeW).foldr (fun a b => a ++ b) [] with
  | [] => ""
  | c :: cs => String.mk (c.toLower :: cs)

mutual
/-- Modelled from the spec: merging one value over another in the
ConfigMerger deep merge (the source imports `recursive_update` from
jupyterlab_server, which is not part of this repository).  Two mappings
merge key-by-key recursively; in every other case the later value
replaces the earlier one (arrays/scalars are replaced, not
concatenated). -/
def mergeV : Value → Value → Value
  | Value.dict ta, Value.dict nb => Value.dict (mergeInto ta nb)
  | _, v => v

/-- Modelled from the spec: the ConfigMerger deep merge of a later
fragment into a target mapping, entry by entry in fragment order. -/
def mergeInto (target : ConfigDict) : ConfigDict → ConfigDict
  | [] => target
  | (k, v) :: rest =>
      mergeInto
        (match lookupKey target k with
         | some old => setKey target k (mergeV old v)
         | none => setKey target k v) rest
end

/-- Deep-merging an ordered sequence of fragments into a page config,
one after the other. -/
def mergeSeq (pc : ConfigDict) (frags : List ConfigDict) : ConfigDict :=
  frags.foldl mergeInto pc

/-! ## Tree routing (`TreeHandler.get`) -/

/-- The external contents collaborator of `TreeHandler.get`:
`cm.dir_exists`, `cm.is_hidden`, `cm.allow_hidden`, `cm.file_exists`,
and `cm.get(path, content=...)["type"]` (the boolean argument of
`entryType` is the `content` flag of `cm.get`). -/
structure ContentsManager where
  dir_exists : String → Bool
  is_hidden : String → Bool
  allow_hidden : Bool
  file_exists : String → Bool
  entryType : String → Bool → String

/-- The routing decision of `TreeHandler.get`: render the directory
listing, redirect to a URL, or fail with HTTP 404. -/
inductive RoutingDecision where
  | serveListing (path : String)
  | redirectTo (url : String)
  | notFound

/-- The observable outcome of `TreeHandler.get`: the routing decision
and whether the informational hidden-directory-refused log entry was
emitted. -/
structure TreeOutcome where
  decision : RoutingDecision
  loggedHiddenRefusal : Bool

/-- Embedding of `TreeHandler.get` (src/app_improvements.py lines
125-149).  The request path is stripped of surrounding slashes; an
existing directory is served (or refused with 404 when hidden and
hidden access is disallowed, with a log entry); an existing file is
redirected to the notebooks/ or files/ target built from its entry type
fetched without content; anything else is 404. -/
def treeGet (cm : ContentsManager) (self_base_url : String)
    (quote : String → String) (rawPath : String) : TreeOutcome :=
  let path := stripSlashes rawPath
  if cm.dir_exists path then
    if cm.is_hidden path && !cm.allow_hidden then
      ⟨RoutingDecision.notFound, true⟩
    else
      ⟨RoutingDecision.serveListing path, false⟩
  else if cm.file_exists path then
    let url :=
      if cm.entryType path false = "notebook" then
        ujoin [self_base_url, "notebooks", url_escape quote path]
      else
        ujoin [self_base_url, "files", url_escape quote path]
    ⟨RoutingDecision.redirectTo url, false⟩
  else
    ⟨RoutingDecision.notFound, false⟩

/-! ## Custom stylesheet resolution (`CustomCssHandler.get`) -/

/-- The literal word searched for by the fallback pattern
`re.match("^(.*?)static", staticDir)` of the source. -/
def staticChars : List Char := ['s', 't', 'a', 't', 'i', 'c']

/-- Embedding of Python's `re.match("^(.*?)static", s)`: the shortest
prefix of `s` that is followed by the literal word "static", provided
no newline occurs in that prefix (regex `.` does not match a newline);
`none` when the pattern does not match. -/
def matchUpToStatic : List Char → Option (List Char)
  | [] => none
  | c :: rest =>
      if isPrefixList staticChars (c :: rest) then some []
      else if c = '\n' then none
      else Option.map (fun p => c :: p) (matchUpToStatic rest)

/-- Embedding of the candidate-path selection of `CustomCssHandler.get`
(src/app_improvements.py lines 200-205): the primary candidate is
`configDir + "/custom/custom.css"`; when it does not exist as a file
and the static-directory hint matches `^(.*?)static`, the fallback is
the matched group followed by `custom/custom.css`; otherwise the
primary candidate is kept. -/
def resolveCustomCssPath (configDir staticDir : String)
    (is_file : String → Bool) : String :=
  let primary := configDir ++ "/custom/custom.css"
  if is_file primary then primary
  else
    match matchUpToStatic staticDir.toList with
    | some pre => String.mk pre ++ "custom/custom.css"
    | none => primary

/-- The observable outcome of `CustomCssHandler.get`: the content type
set on the response, the body (file contents, or an HTTP error given as
status code and message), and whether the error log entry was
emitted. -/
structure CssOutcome where
  contentType : String
  body : Except (Nat × String) String
  loggedError : Bool

/-- Embedding of `CustomCssHandler.get` (src/app_improvements.py lines
196-212).  `read` models opening and reading a file: `none` when the
file is absent or unreadable (Python raises `IOError`), `some` its
contents otherwise. -/
def customCssGet (configDir staticDir : String) (is_file : String → Bool)
    (read : String → Option String) : CssOutcome :=
  match read (resolveCustomCssPath configDir staticDir is_file) with
  | some contents => ⟨"text/css", Except.ok contents, false⟩
  | none => ⟨"text/css", Except.error (500, "Custom CSS file not found."), true⟩

/-! ## Page-config building (`NotebookBaseHandler.get_page_config`) -/

/-- The inputs of one run of `NotebookBaseHandler.get_page_config`:
request settings, application trait values, the merged
extension-contributed fragment found on disk, and the optional hook.
Helper functions that live outside the repository are kept abstract as
fields: `expand_normalize` models the `os.sep` replacement,
`Path.expanduser` and `os.path.normpath` applied to the server root;
`relpath` models the fallible `os.path.relpath`; `url_is_absolute` and
`is_url` model the absolute-URL tests imported from jupyter_server and
jupyterlab_server. -/
structure Env where
  page_config_data : ConfigDict
  app_version : String
  base_url : String
  self_base_url : String
  terminals_available : Bool
  token : String
  name : String
  expose_app_in_browser : Bool
  server_root_dir : String
  preferred_dir : String
  expand_normalize : String → String
  relpath : String → String → Except String String
  mathjax_config : String
  mathjax_url : String
  url_is_absolute : String → Bool
  is_url : String → Bool
  jupyter_config_dir : String
  trait_names : List String
  trait_value : String → Value
  ext_fragment : ConfigDict
  page_config_hook : Option (ConfigDict → ConfigDict)

/-- The observable outcome of `get_page_config`: the returned mapping
(`none` when the run raises, e.g. a non-string `_url` trait value), and
whether the preferred-path error log entry was emitted. -/
structure BuildOutcome where
  config : Option ConfigDict
  loggedPreferredPathError : Bool

/-- The normalized server root
(`os.path.normpath(Path(server_root).expanduser())` after replacing
`os.sep`, src line 71-72). -/
def normalizedServerRoot (e : Env) : String :=
  e.expand_normalize e.server_root_dir

/-- The preferred-path computation of `get_page_config` (src lines
73-78): "/" when the preferred directory equals the normalized server
root, otherwise "/" followed by the relative path; a relpath failure is
caught, logged (second component) and degraded to "/". -/
def preferredPathAndLog (e : Env) : String × Bool :=
  if e.preferred_dir ≠ normalizedServerRoot e then
    match e.relpath e.preferred_dir (normalizedServerRoot e) with
    | Except.ok r => ("/" ++ r, false)
    | Except.error _ => ("/", true)
  else ("/", false)

/-- The MathJax URL resolution of `get_page_config` (src lines 85-86):
join onto the base URL only when the configured URL is neither absolute
nor already starting with the base URL. -/
def resolvedMathjaxUrl (e : Env) : String :=
  if !e.url_is_absolute e.mathjax_url &&
      !startsWithStr e.mathjax_url e.self_base_url then
    ujoin [e.self_base_url, e.mathjax_url]
  else e.mathjax_url

/-- The initial page-config dict literal of `get_page_config` (src
lines 60-69): the spread of `page_config_data` followed by the seven
literal entries, in source order. -/
def seedConfig (e : Env) : ConfigDict :=
  setKey (setKey (setKey (setKey (setKey (setKey (setKey e.page_config_data
    "appVersion" (Value.str e.app_version))
    "baseUrl" (Value.str e.self_base_url))
    "terminalsAvailable" (Value.bool e.terminals_available))
    "token" (Value.str e.token))
    "fullStaticUrl" (Value.str (ujoin [e.self_base_url, "static", e.name])))
    "frontendUrl" (Value.str (ujoin [e.self_base_url, "/"])))
    "exposeAppInBrowser" (Value.bool e.expose_app_in_browser)

/-- The page config after the preferred-path assignment (src line 74)
and the MathJax/config-dir update (src lines 88-92), in source order. -/
def configAfterMathjax (e : Env) : ConfigDict :=
  setKey (setKey (setKey (setKey (seedConfig e)
    "preferredPath" (Value.str (preferredPathAndLog e).1))
    "mathjaxConfig" (Value.str e.mathjax_config))
    "fullMathjaxUrl" (Value.str (resolvedMathjaxUrl e)))
    "jupyterConfigDir" (Value.str e.jupyter_config_dir)

/-- One iteration of the first trait loop (src lines 94-95):
`page_config[_camelCase(name)] = getattr(app, name)`. -/
def traitStep (e : Env) (acc : ConfigDict) (n : String) : ConfigDict :=
  setKey acc (camelCase n) (e.trait_value n)

/-- One iteration of the second trait loop (src lines 97-103): for a
trait name ending in "_url", store under the camelCased "full_"-name
the raw value, joined onto the base URL unless it is already a URL.  A
non-string value would make Python's `ujoin` raise, which is modelled
as `none`. -/
def fullUrlStep (e : Env) (acc : ConfigDict) (n : String) : Option ConfigDict :=
  if endsWithStr n "_url" then
    match e.trait_value n with
    | Value.str s =>
        some (setKey acc (camelCase ("full_" ++ n))
          (Value.str (if e.is_url s then s else ujoin [e.base_url, s])))
    | _ => none
  else some acc

/-- Embedding of `NotebookBaseHandler.get_page_config`
(src/app_improvements.py lines 54-118): seed literal, preferred path,
MathJax resolution, the two trait loops, the deep merge of the
extension-contributed fragment, and the optional final hook. -/
def buildPageConfig (e : Env) : BuildOutcome :=
  let pc1 := e.trait_names.foldl (traitStep e) (configAfterMathjax e)
  match e.trait_names.foldlM (fullUrlStep e) pc1 with
  | none => ⟨none, (preferredPathAndLog e).2⟩
  | some pc2 =>
      let pc3 := mergeInto pc2 e.ext_fragment
      let pc4 :=
        match e.page_config_hook with
        | some h => h pc3
        | none => pc3
      ⟨some pc4, (preferredPathAndLog e).2⟩

/-! ## Basic association-list lemmas -/

theorem lookupKey_setKey_self (d : ConfigDict) (k : String) (v : Value) :
    lookupKey (setKey d k v) k = some v := by
  induction d with
  | nil => simp [setKey, lookupKey]
  | cons hd tl ih =>
      obtain ⟨k0, v0⟩ := hd
      by_cases h : k0 = k
      · subst h; simp [setKey, lookupKey]
      · simp [setKey, lookupKey, h, ih]

theorem lookupKey_setKey_ne (d : ConfigDict) (k k' : String) (v : Value)
    (h : k' ≠ k) : lookupKey (setKey d k v) k' = lookupKey d k' := by
  induction d with
  | nil =>
      simp only [setKey, lookupKey]
      rw [if_neg (fun hh => h hh.symm)]
  | cons hd tl ih =>
      obtain ⟨k0, v0⟩ := hd
      by_cases hk : k0 = k
      · subst hk
        simp [setKey, lookupKey, Ne.symm h]
      · simp only [setKey, if_neg hk, lookupKey]
        split
        · rfl
        · exact ih

theorem lookupKey_mergeInto_of_notin (key : String) :
    ∀ (frag target : ConfigDict), lookupKey frag key = none →
      lookupKey (mergeInto target frag) key = lookupKey target key := by
  intro frag
  induction frag with
  | nil => intro target _; rw [mergeInto]
  | cons hd rest ih =>
      obtain ⟨k, v⟩ := hd
      intro target h
      have hk : ¬ k = key := by
        intro hh
        simp [lookupKey, hh] at h
      have hrest : lookupKey rest key = none := by
        simpa [lookupKey, hk] using h
      rw [mergeInto, ih _ hrest]
      split
      · exact lookupKey_setKey_ne _ _ _ _ (fun hh => hk hh.symm)
      · exact lookupKey_setKey_ne _ _ _ _ (fun hh => hk hh.symm)

/-! ## Tree routing claims -/

/-- C1: after stripping surrounding slashes, the tree classifier
returns NotFound exactly when (a) the path is an existing directory
that is hidden while hidden access is disallowed (with the
informational log entry emitted exactly then), or (b) the path is
neither an existing directory nor an existing file; in every other
case the decision is a listing or a redirect. -/
theorem treeGet_notFound_iff (cm : ContentsManager) (b : String)
    (q : String → String) (raw : String) :
    ((treeGet cm b q raw).decision = RoutingDecision.notFound ↔
      (cm.dir_exists (stripSlashes raw) = true ∧
        cm.is_hidden (stripSlashes raw) = true ∧ cm.allow_hidden = false) ∨
      (cm.dir_exists (stripSlashes raw) = false ∧
        cm.file_exists (stripSlashes raw) = false)) ∧
    ((treeGet cm b q raw).loggedHiddenRefusal = true ↔
      cm.dir_exists (stripSlashes raw) = true ∧
        cm.is_hidden (stripSlashes raw) = true ∧ cm.allow_hidden = false) ∧
    ((treeGet cm b q raw).decision = RoutingDecision.notFound ∨
      (∃ p, (treeGet cm b q raw).decision = RoutingDecision.serveListing p) ∨
      ∃ u, (treeGet cm b q raw).decision = RoutingDecision.redirectTo u) := by
  cases hd : cm.dir_exists (stripSlashes raw) <;>
    cases hh : cm.is_hidden (stripSlashes raw) <;>
      cases ha : cm.allow_hidden <;>
        cases hf : cm.file_exists (stripSlashes raw) <;>
          simp [treeGet, hd, hh, ha, hf]

/-- C2: for a request path that is not an existing directory but an
existing file, the classifier fetches the entry type without content
and redirects: type "notebook" goes to the base URL joined with
"notebooks" and the URL-escaped path, every other type to the base URL
joined with "files" and the URL-escaped path. -/
theorem treeGet_file_redirect (cm : ContentsManager) (b : String)
    (q : String → String) (raw : String)
    (hdir : cm.dir_exists (stripSlashes raw) = false)
    (hfile : cm.file_exists (stripSlashes raw) = true) :
    (cm.entryType (stripSlashes raw) false = "notebook" →
      (treeGet cm b q raw).decision =
        RoutingDecision.redirectTo
          (ujoin [b, "notebooks", url_escape q (stripSlashes raw)])) ∧
    (cm.entryType (stripSlashes raw) false ≠ "notebook" →
      (treeGet cm b q raw).decision =
        RoutingDecision.redirectTo
          (ujoin [b, "files", url_escape q (stripSlashes raw)])) := by
  constructor <;> intro ht <;> simp [treeGet, hdir, hfile, ht]

/-- A contents probe reporting every path as an existing, non-hidden
file of type "notebook". -/
def cmNotebook : ContentsManager :=
  ⟨fun _ => false, fun _ => false, true, fun _ => true, fun _ _ => "notebook"⟩

/-- Witness for C2: the request path "a.ipynb", reported as an existing
file of type "notebook", is redirected to the notebooks target. -/
theorem treeGet_file_redirect_witness :
    (treeGet cmNotebook "/" (fun s => s) "a.ipynb").decision =
      RoutingDecision.redirectTo
        (ujoin ["/", "notebooks", url_escape (fun s => s) "a.ipynb"]) :=
  (treeGet_file_redirect cmNotebook "/" (fun s => s) "a.ipynb" rfl rfl).1 rfl

/-- C10: the hidden-resource check applies only to directories: a path
that is not an existing directory but an existing file is redirected
even when it is hidden and hidden access is disallowed; the decision
does not consult the hidden flags on the file branch. -/
theorem treeGet_file_ignores_hidden (cm : ContentsManager) (b : String)
    (q : String → String) (raw : String)
    (hdir : cm.dir_exists (stripSlashes raw) = false)
    (hfile : cm.file_exists (stripSlashes raw) = true)
    (hhid : cm.is_hidden (stripSlashes raw) = true)
    (hallow : cm.allow_hidden = false) :
    (treeGet cm b q raw).decision =
      RoutingDecision.redirectTo
        (if cm.entryType (stripSlashes raw) false = "notebook" then
          ujoin [b, "notebooks", url_escape q (stripSlashes raw)]
        else ujoin [b, "files", url_escape q (stripSlashes raw)]) := by
  simp [treeGet, hdir, hfile]

/-- A contents probe reporting every path as a hidden existing file of
a non-notebook type, with hidden access disallowed. -/
def cmHiddenFile : ContentsManager :=
  ⟨fun _ => false, fun _ => true, false, fun _ => true, fun _ _ => "text"⟩

/-- Witness for C10: the hidden file "readme.txt" is still redirected
to the files target although hidden access is disallowed. -/
theorem treeGet_file_ignores_hidden_witness :
    (treeGet cmHiddenFile "/" (fun s => s) "readme.txt").decision =
      RoutingDecision.redirectTo
        (ujoin ["/", "files", url_escape (fun s => s) "readme.txt"]) := by
  have h := treeGet_file_ignores_hidden cmHiddenFile "/" (fun s => s)
    "readme.txt" rfl rfl rfl rfl
  simpa using h

/-! ## Custom stylesheet claims -/

theorem isPrefixList_iff : ∀ (a b : List Char),
    isPrefixList a b = true ↔ ∃ t, b = a ++ t := by
  intro a
  induction a with
  | nil => intro b; simp [isPrefixList]
  | cons x xs ih =>
      intro b
      cases b with
      | nil => simp [isPrefixList]
      | cons y ys =>
          simp only [isPrefixList, Bool.and_eq_true, beq_iff_eq, ih]
          constructor
          · rintro ⟨rfl, t, rfl⟩
            exact ⟨t, rfl⟩
          · rintro ⟨t, ht⟩
            injection ht with h1 h2
            exact ⟨h1.symm, t, h2⟩

/-- Characterization of the embedded regex match: `matchUpToStatic s`
returns `some pre` exactly when `pre` is a newline-free prefix of `s`
followed immediately by the literal word "static", and `pre` is the
shortest such prefix. -/
theorem matchUpToStatic_spec :
    ∀ (s pre : List Char),
      matchUpToStatic s = some pre ↔
        (isPrefixList (pre ++ staticChars) s = true ∧
          (∀ c ∈ pre, c ≠ '\n') ∧
          ∀ q : List Char, isPrefixList (q ++ staticChars) s = true →
            pre.length ≤ q.length) := by
  intro s
  induction s with
  | nil =>
      intro pre
      constructor
      · intro h; simp [matchUpToStatic] at h
      · rintro ⟨h1, -, -⟩
        exfalso
        rw [isPrefixList_iff] at h1
        obtain ⟨t, ht⟩ := h1
        cases pre <;> simp [staticChars] at ht
  | cons c rest ih =>
      intro pre
      by_cases hm : isPrefixList staticChars (c :: rest) = true
      · simp only [matchUpToStatic, if_pos hm]
        constructor
        · intro h
          injection h with h
          subst h
          refine ⟨by simpa using hm, by simp, fun q _ => by simp⟩
        · rintro ⟨h1, h2, h3⟩
          have hle := h3 [] (by simpa using hm)
          have hpre : pre = [] := List.eq_nil_of_length_eq_zero (Nat.le_zero.mp hle)
          subst hpre; rfl
      · by_cases hnl : c = '\n'
        · subst hnl
          simp only [matchUpToStatic, if_neg hm, if_pos rfl]
          constructor
          · intro h; exact absurd h (by simp)
          · rintro ⟨h1, h2, -⟩
            exfalso
            cases pre with
            | nil => exact hm (by simpa using h1)
            | cons a p =>
                simp only [List.cons_append, isPrefixList, Bool.and_eq_true,
                  beq_iff_eq] at h1
                exact (h2 a (List.mem_cons_self a p)) h1.1
        · simp only [matchUpToStatic, if_neg hm, if_neg hnl]
          constructor
          · intro h
            rw [Option.map_eq_some'] at h
            obtain ⟨p, hp, rfl⟩ := h
            obtain ⟨h1, h2, h3⟩ := (ih p).mp hp
            refine ⟨?_, ?_, ?_⟩
            · simp [isPrefixList, h1]
            · intro x hx
              rcases List.mem_cons.mp hx with rfl | hx
              · exact hnl
              · exact h2 x hx
            · intro q hq
              cases q with
              | nil => exact absurd (by simpa using hq) hm
              | cons a q2 =>
                  simp only [List.cons_append, isPrefixList, Bool.and_eq_true,
                    beq_iff_eq] at hq
                  simpa using Nat.succ_le_succ (h3 q2 hq.2)
          · rintro ⟨h1, h2, h3⟩
            cases pre with
            | nil => exact absurd (by simpa using h1) hm
            | cons a p =>
                simp only [List.cons_append, isPrefixList, Bool.and_eq_true,
                  beq_iff_eq] at h1
                obtain ⟨rfl, h1⟩ := h1
                have hrec : matchUpToStatic rest = some p := by
                  apply (ih p).mpr
                  refine ⟨h1, fun x hx => h2 x (List.mem_cons_of_mem _ hx), ?_⟩
                  intro q hq
                  have hlen := h3 (a :: q) (by simp [isPrefixList, hq])
                  simpa using hlen
                rw [hrec]; rfl

/-- C6: the custom-stylesheet resolver first forms the primary
candidate configDir + "/custom/custom.css"; when that is not a file it
derives a fallback only when the static-directory hint matches a
shortest (newline-free) prefix followed by the literal word "static",
in which case the fallback is that prefix followed by
"custom/custom.css"; when the pattern does not match, only the primary
candidate is kept. -/
theorem resolveCustomCss_spec (configDir staticDir : String)
    (is_file : String → Bool) :
    (is_file (configDir ++ "/custom/custom.css") = true →
      resolveCustomCssPath configDir staticDir is_file =
        configDir ++ "/custom/custom.css") ∧
    (is_file (configDir ++ "/custom/custom.css") = false →
      (matchUpToStatic staticDir.toList = none →
        resolveCustomCssPath configDir staticDir is_file =
          configDir ++ "/custom/custom.css") ∧
      ∀ pre, matchUpToStatic staticDir.toList = some pre →
        resolveCustomCssPath configDir staticDir is_file =
          String.mk pre ++ "custom/custom.css" ∧
        isPrefixList (pre ++ staticChars) staticDir.toList = true ∧
        (∀ c ∈ pre, c ≠ '\n') ∧
        ∀ q : List Char,
          isPrefixList (q ++ staticChars) staticDir.toList = true →
            pre.length ≤ q.length) := by
  refine ⟨fun h => by simp [resolveCustomCssPath, h], fun h => ⟨?_, ?_⟩⟩
  · intro hm
    have hm2 : matchUpToStatic staticDir.data = none := hm
    simp [resolveCustomCssPath, h, hm2]
  · intro pre hm
    have hm2 : matchUpToStatic staticDir.data = some pre := hm
    exact ⟨by simp [resolveCustomCssPath, h, hm2],
      ((matchUpToStatic_spec _ _).mp hm).1,
      ((matchUpToStatic_spec _ _).mp hm).2.1,
      ((matchUpToStatic_spec _ _).mp hm).2.2⟩

/-- Witness for C6: with config directory "/cfg", static-directory hint
"/app/static/x" and no readable primary candidate, the resolver falls
back to "/app/custom/custom.css". -/
theorem resolveCustomCss_spec_witness :
    resolveCustomCssPath "/cfg" "/app/static/x" (fun _ => false) =
      String.mk ['/', 'a', 'p', 'p', '/'] ++ "custom/custom.css" :=
  (((resolveCustomCss_spec "/cfg" "/app/static/x" (fun _ => false)).2 rfl).2
    ['/', 'a', 'p', 'p', '/'] rfl).1

/-- C7: when reading the selected candidate fails the handler logs the
error and fails with the fixed 500 message (never a 404); on a
successful read it returns the contents with content type
"text/css". -/
theorem customCss_outcome (configDir staticDir : String)
    (is_file : String → Bool) (read : String → Option String) :
    (∀ contents,
      read (resolveCustomCssPath configDir staticDir is_file) =
          some contents →
        customCssGet configDir staticDir is_file read =
          ⟨"text/css", Except.ok contents, false⟩) ∧
    (read (resolveCustomCssPath configDir staticDir is_file) = none →
      (customCssGet configDir staticDir is_file read).body =
          Except.error (500, "Custom CSS file not found.") ∧
        (customCssGet configDir staticDir is_file read).loggedError = true ∧
        (customCssGet configDir staticDir is_file read).contentType =
          "text/css" ∧
        ∀ msg, (customCssGet configDir staticDir is_file read).body ≠
          Except.error (404, msg)) := by
  constructor
  · intro contents h
    simp [customCssGet, h]
  · intro h
    refine ⟨by simp [customCssGet, h], by simp [customCssGet, h],
      by simp [customCssGet, h], ?_⟩
    intro msg
    simp [customCssGet, h]

/-- Witness for C7: with no readable candidate at all, the handler
fails with the fixed 500 message and logs the error. -/
theorem customCss_outcome_witness :
    (customCssGet "/cfg" "/s" (fun _ => false) (fun _ => none)).body =
        Except.error (500, "Custom CSS file not found.") ∧
      (customCssGet "/cfg" "/s" (fun _ => false) (fun _ => none)).loggedError =
        true := by
  have h := (customCss_outcome "/cfg" "/s" (fun _ => false) (fun _ => none)).2 rfl
  exact ⟨h.1, h.2.1⟩

/-! ## Merge and determinism claims -/

/-- C8: merging extension fragments [A, B] into the page config and
then merging C yields the same mapping as merging [A, B, C] in one
ordered pass; more generally, merging a sequence xs and then a sequence
ys equals merging the concatenated sequence xs ++ ys. -/
theorem mergeSeq_seq_assoc :
    (∀ (pc : ConfigDict) (xs ys : List ConfigDict),
        mergeSeq (mergeSeq pc xs) ys = mergeSeq pc (xs ++ ys)) ∧
    ∀ (pc A B C : ConfigDict),
      mergeSeq (mergeSeq pc [A, B]) [C] = mergeSeq pc [A, B, C] := by
  constructor
  · intro pc xs ys
    simp [mergeSeq, List.foldl_append]
  · intro pc A B C; rfl

/-- A concrete, fully specified environment for `get_page_config`. -/
def sampleEnv : Env :=
  ⟨[], "7.0.0", "/", "/", true, "tok", "notebook", false,
    "/home/user", "/home/user", fun s => s, fun _ _ => Except.ok "",
    "TeX-AMS_HTML-full,Safe", "https://cdn.example/MathJax.js",
    fun s => startsWithStr s "http", fun s => startsWithStr s "http",
    "/home/user/.jupyter", ["themes_url"], fun _ => Value.str "lab/api/themes",
    [], none⟩

/-- C9: get_page_config is deterministic — identical inputs (settings,
trait values, extension fragments found on disk, hook) produce
identical outcomes, the logging flag included. -/
theorem buildPageConfig_deterministic (e₁ e₂ : Env) (h : e₁ = e₂) :
    buildPageConfig e₁ = buildPageConfig e₂ := by rw [h]

/-- Witness for C9: two runs on the same concrete environment agree. -/
theorem buildPageConfig_deterministic_witness :
    buildPageConfig sampleEnv = buildPageConfig sampleEnv :=
  buildPageConfig_deterministic sampleEnv sampleEnv rfl

/-! ## Page-config pipeline lemmas -/

theorem mergeInto_nil (target : ConfigDict) : mergeInto target [] = target := by
  rw [mergeInto]

theorem lookup_configAfterMathjax_preferredPath (e : Env) :
    lookupKey (configAfterMathjax e) "preferredPath" =
      some (Value.str (preferredPathAndLog e).1) := by
  unfold configAfterMathjax
  rw [lookupKey_setKey_ne _ _ _ _ (by decide),
    lookupKey_setKey_ne _ _ _ _ (by decide),
    lookupKey_setKey_ne _ _ _ _ (by decide),
    lookupKey_setKey_self]

theorem lookup_configAfterMathjax_fullMathjaxUrl (e : Env) :
    lookupKey (configAfterMathjax e) "fullMathjaxUrl" =
      some (Value.str (resolvedMathjaxUrl e)) := by
  unfold configAfterMathjax
  rw [lookupKey_setKey_ne _ _ _ _ (by decide), lookupKey_setKey_self]

theorem foldl_traitStep_lookup (e : Env) (key : String) :
    ∀ (names : List String) (acc : ConfigDict),
      (∀ n ∈ names, camelCase n ≠ key) →
      lookupKey (List.foldl (traitStep e) acc names) key = lookupKey acc key := by
  intro names
  induction names with
  | nil => intro acc _; rfl
  | cons n rest ih =>
      intro acc h
      rw [List.foldl_cons, ih _ (fun m hm => h m (List.mem_cons_of_mem _ hm))]
      exact lookupKey_setKey_ne _ _ _ _ (Ne.symm (h n (List.mem_cons_self n rest)))

theorem foldlM_fullUrlStep_total (e : Env) :
    ∀ (names : List String) (acc : ConfigDict),
      (∀ n ∈ names, endsWithStr n "_url" = true →
        ∃ s, e.trait_value n = Value.str s) →
      ∃ pc, List.foldlM (fullUrlStep e) acc names = some pc := by
  intro names
  induction names with
  | nil => intro acc _; exact ⟨acc, rfl⟩
  | cons n rest ih =>
      intro acc h
      have hrest := fun m hm => h m (List.mem_cons_of_mem _ hm)
      cases hcond : endsWithStr n "_url" with
      | false =>
          obtain ⟨pc, hpc⟩ := ih acc hrest
          refine ⟨pc, ?_⟩
          have hstep : fullUrlStep e acc n = some acc := by
            simp [fullUrlStep, hcond]
          show fullUrlStep e acc n >>=
            (fun b => List.foldlM (fullUrlStep e) b rest) = some pc
          rw [hstep]
          exact hpc
      | true =>
          obtain ⟨s, hs⟩ := h n (List.mem_cons_self n rest) hcond
          set acc2 := setKey acc (camelCase ("full_" ++ n))
            (Value.str (if e.is_url s then s else ujoin [e.base_url, s])) with hacc2
          obtain ⟨pc, hpc⟩ := ih acc2 hrest
          refine ⟨pc, ?_⟩
          have hstep : fullUrlStep e acc n = some acc2 := by
            simp [fullUrlStep, hcond, hs, hacc2]
          show fullUrlStep e acc n >>=
            (fun b => List.foldlM (fullUrlStep e) b rest) = some pc
          rw [hstep]
          exact hpc

theorem foldlM_fullUrlStep_lookup_ne (e : Env) (key : String) :
    ∀ (names : List String) (acc pc : ConfigDict),
      List.foldlM (fullUrlStep e) acc names = some pc →
      (∀ n ∈ names, camelCase ("full_" ++ n) ≠ key) →
      lookupKey pc key = lookupKey acc key := by
  intro names
  induction names with
  | nil =>
      intro acc pc hfold _
      rw [← Option.some.inj hfold]
  | cons n rest ih =>
      intro acc pc hfold h
      have h2 : fullUrlStep e acc n >>=
          (fun b => List.foldlM (fullUrlStep e) b rest) = some pc := hfold
      cases hstep : fullUrlStep e acc n with
      | none => rw [hstep] at h2; simp at h2
      | some acc2 =>
          rw [hstep] at h2
          have h3 : List.foldlM (fullUrlStep e) acc2 rest = some pc := h2
          rw [ih acc2 pc h3 (fun m hm => h m (List.mem_cons_of_mem _ hm))]
          by_cases hcond : endsWithStr n "_url" = true
          · cases hv : e.trait_value n with
            | str s =>
                have hset : setKey acc (camelCase ("full_" ++ n))
                    (Value.str (if e.is_url s then s
                      else ujoin [e.base_url, s])) = acc2 := by
                  have := hstep
                  simpa [fullUrlStep, hcond, hv] using this
                rw [← hset]
                exact lookupKey_setKey_ne _ _ _ _
                  (Ne.symm (h n (List.mem_cons_self n rest)))
            | bool b => simp [fullUrlStep, hcond, hv] at hstep
            | dict d => simp [fullUrlStep, hcond, hv] at hstep
          · have hacc : acc = acc2 := by
              have := hstep
              simpa [fullUrlStep, hcond] using this
            rw [hacc]

theorem foldlM_fullUrlStep_preserve (e : Env) (key : String) (target : Value) :
    ∀ (names : List String) (acc pc : ConfigDict),
      List.foldlM (fullUrlStep e) acc names = some pc →
      (∀ n ∈ names, endsWithStr n "_url" = true →
        camelCase ("full_" ++ n) = key → ∀ s, e.trait_value n = Value.str s →
          Value.str (if e.is_url s then s else ujoin [e.base_url, s]) = target) →
      lookupKey acc key = some target →
      lookupKey pc key = some target := by
  intro names
  induction names with
  | nil =>
      intro acc pc hfold _ hacc
      rw [← Option.some.inj hfold]
      exact hacc
  | cons n rest ih =>
      intro acc pc hfold h hacc
      have h2 : fullUrlStep e acc n >>=
          (fun b => List.foldlM (fullUrlStep e) b rest) = some pc := hfold
      cases hstep : fullUrlStep e acc n with
      | none => rw [hstep] at h2; simp at h2
      | some acc2 =>
          rw [hstep] at h2
          have h3 : List.foldlM (fullUrlStep e) acc2 rest = some pc := h2
          refine ih acc2 pc h3
            (fun m hm => h m (List.mem_cons_of_mem _ hm)) ?_
          by_cases hcond : endsWithStr n "_url" = true
          · cases hv : e.trait_value n with
            | str s =>
                have hset : setKey acc (camelCase ("full_" ++ n))
                    (Value.str (if e.is_url s then s
                      else ujoin [e.base_url, s])) = acc2 := by
                  have := hstep
                  simpa [fullUrlStep, hcond, hv] using this
                by_cases hkey : camelCase ("full_" ++ n) = key
                · rw [← hset, hkey, lookupKey_setKey_self]
                  exact congrArg some
                    (h n (List.mem_cons_self n rest) hcond hkey s hv)
                · rw [← hset,
                    lookupKey_setKey_ne _ _ _ _ (fun hh => hkey hh.symm)]
                  exact hacc
            | bool b => simp [fullUrlStep, hcond, hv] at hstep
            | dict d => simp [fullUrlStep, hcond, hv] at hstep
          · have hacc2 : acc = acc2 := by
              have := hstep
              simpa [fullUrlStep, hcond] using this
            rw [← hacc2]
            exact hacc

theorem foldlM_fullUrlStep_sets (e : Env) (key : String) (target : Value) :
    ∀ (names : List String) (acc pc : ConfigDict),
      List.foldlM (fullUrlStep e) acc names = some pc →
      (∀ n ∈ names, endsWithStr n "_url" = true →
        camelCase ("full_" ++ n) = key → ∀ s, e.trait_value n = Value.str s →
          Value.str (if e.is_url s then s else ujoin [e.base_url, s]) = target) →
      (∃ n, n ∈ names ∧ endsWithStr n "_url" = true ∧
        camelCase ("full_" ++ n) = key) →
      lookupKey pc key = some target := by
  intro names
  induction names with
  | nil =>
      intro acc pc _ _ hex
      obtain ⟨n, hn, -, -⟩ := hex
      exact absurd hn (List.not_mem_nil n)
  | cons n rest ih =>
      intro acc pc hfold h hex
      have h2 : fullUrlStep e acc n >>=
          (fun b => List.foldlM (fullUrlStep e) b rest) = some pc := hfold
      cases hstep : fullUrlStep e acc n with
      | none => rw [hstep] at h2; simp at h2
      | some acc2 =>
          rw [hstep] at h2
          have h3 : List.foldlM (fullUrlStep e) acc2 rest = some pc := h2
          obtain ⟨n0, hn0, hn0url, hn0key⟩ := hex
          rcases List.mem_cons.mp hn0 with rfl | hmem0
          · cases hv : e.trait_value n0 with
            | str s =>
                have hset : setKey acc (camelCase ("full_" ++ n0))
                    (Value.str (if e.is_url s then s
                      else ujoin [e.base_url, s])) = acc2 := by
                  have := hstep
                  simpa [fullUrlStep, hn0url, hv] using this
                refine foldlM_fullUrlStep_preserve e key target rest acc2 pc h3
                  (fun m hm => h m (List.mem_cons_of_mem _ hm)) ?_
                rw [← hset, hn0key, lookupKey_setKey_self]
                exact congrArg some
                  (h n0 (List.mem_cons_self n0 rest) hn0url hn0key s hv)
            | bool b => simp [fullUrlStep, hn0url, hv] at hstep
            | dict d => simp [fullUrlStep, hn0url, hv] at hstep
          · exact ih acc2 pc h3
              (fun m hm => h m (List.mem_cons_of_mem _ hm))
              ⟨n0, hmem0, hn0url, hn0key⟩

/-! ## Page-config entry claims -/

/-- C3: the "preferredPath" entry of the built PageConfig is "/" when
the preferred directory equals the normalized server root, otherwise
"/" followed by the relative path from the server root to the preferred
directory; a relpath failure is logged, degrades the entry to "/", and
does not propagate (the build still returns a config).  The hypotheses
state that the later, higher-precedence layers (trait entries, the
extension fragment, the hook) do not override the entry. -/
theorem preferredPath_entry (e : Env)
    (htraits : ∀ n ∈ e.trait_names, camelCase n ≠ "preferredPath")
    (hfull : ∀ n ∈ e.trait_names, camelCase ("full_" ++ n) ≠ "preferredPath")
    (hfrag : lookupKey e.ext_fragment "preferredPath" = none)
    (hhook : e.page_config_hook = none)
    (htotal : ∀ n ∈ e.trait_names, endsWithStr n "_url" = true →
      ∃ t, e.trait_value n = Value.str t) :
    ∃ pc, (buildPageConfig e).config = some pc ∧
      lookupKey pc "preferredPath" = some (Value.str (preferredPathAndLog e).1) ∧
      ((e.preferred_dir = normalizedServerRoot e →
          (preferredPathAndLog e).1 = "/" ∧
          (buildPageConfig e).loggedPreferredPathError = false) ∧
        (∀ r, e.preferred_dir ≠ normalizedServerRoot e →
          e.relpath e.preferred_dir (normalizedServerRoot e) = Except.ok r →
          (preferredPathAndLog e).1 = "/" ++ r ∧
          (buildPageConfig e).loggedPreferredPathError = false) ∧
        ∀ msg, e.preferred_dir ≠ normalizedServerRoot e →
          e.relpath e.preferred_dir (normalizedServerRoot e) =
            Except.error msg →
          (preferredPathAndLog e).1 = "/" ∧
          (buildPageConfig e).loggedPreferredPathError = true) := by
  obtain ⟨pc2, hpc2⟩ := foldlM_fullUrlStep_total e e.trait_names
    (List.foldl (traitStep e) (configAfterMathjax e) e.trait_names) htotal
  have hlog : (buildPageConfig e).loggedPreferredPathError =
      (preferredPathAndLog e).2 := by
    simp [buildPageConfig, hpc2]
  refine ⟨mergeInto pc2 e.ext_fragment, by simp [buildPageConfig, hpc2, hhook],
    ?_, ?_, ?_, ?_⟩
  · rw [lookupKey_mergeInto_of_notin _ _ _ hfrag,
      foldlM_fullUrlStep_lookup_ne e _ e.trait_names _ pc2 hpc2 hfull,
      foldl_traitStep_lookup e _ e.trait_names _ htraits,
      lookup_configAfterMathjax_preferredPath]
  · intro heq
    rw [hlog]
    simp [preferredPathAndLog, heq]
  · intro r hne hr
    rw [hlog]
    simp [preferredPathAndLog, hne, hr]
  · intro msg hne hr
    rw [hlog]
    simp [preferredPathAndLog, hne, hr]

/-- A concrete environment whose preferred directory lies below the
server root and whose relative-path computation succeeds. -/
def envPreferred : Env :=
  ⟨[], "7.0.0", "/", "/", false, "tok", "notebook", false,
    "/srv", "/srv/books", fun s => s, fun _ _ => Except.ok "books",
    "cfg", "https://cdn.example/MathJax.js",
    fun _ => true, fun _ => true,
    "/jp", [], fun _ => Value.str "",
    [], none⟩

/-- Witness for C3: with server root "/srv" and preferred directory
"/srv/books", the built config holds preferredPath "/books". -/
theorem preferredPath_entry_witness :
    ∃ pc, (buildPageConfig envPreferred).config = some pc ∧
      lookupKey pc "preferredPath" = some (Value.str "/books") := by
  obtain ⟨pc, hpc, hlook, -⟩ := preferredPath_entry envPreferred
    (by simp [envPreferred]) (by simp [envPreferred]) rfl rfl
    (by simp [envPreferred])
  refine ⟨pc, hpc, ?_⟩
  rw [hlook]
  rfl

/-- C4 (amended): the "fullMathjaxUrl" entry equals the configured
MathJax URL unchanged when that URL is absolute, and also when it is
not absolute but already starts with the base URL; only when it is
neither absolute nor starting with the base URL is it the base URL
joined with the input.  Hypotheses as in C3: the later layers do not
override the entry. -/
theorem fullMathjaxUrl_entry (e : Env)
    (htraits : ∀ n ∈ e.trait_names, camelCase n ≠ "fullMathjaxUrl")
    (hfull : ∀ n ∈ e.trait_names, camelCase ("full_" ++ n) ≠ "fullMathjaxUrl")
    (hfrag : lookupKey e.ext_fragment "fullMathjaxUrl" = none)
    (hhook : e.page_config_hook = none)
    (htotal : ∀ n ∈ e.trait_names, endsWithStr n "_url" = true →
      ∃ t, e.trait_value n = Value.str t) :
    ∃ pc, (buildPageConfig e).config = some pc ∧
      (e.url_is_absolute e.mathjax_url = true →
        lookupKey pc "fullMathjaxUrl" = some (Value.str e.mathjax_url)) ∧
      (e.url_is_absolute e.mathjax_url = false →
        startsWithStr e.mathjax_url e.self_base_url = false →
        lookupKey pc "fullMathjaxUrl" =
          some (Value.str (ujoin [e.self_base_url, e.mathjax_url]))) ∧
      (e.url_is_absolute e.mathjax_url = false →
        startsWithStr e.mathjax_url e.self_base_url = true →
        lookupKey pc "fullMathjaxUrl" = some (Value.str e.mathjax_url)) := by
  obtain ⟨pc2, hpc2⟩ := foldlM_fullUrlStep_total e e.trait_names
    (List.foldl (traitStep e) (configAfterMathjax e) e.trait_names) htotal
  have hlook : lookupKey (mergeInto pc2 e.ext_fragment) "fullMathjaxUrl" =
      some (Value.str (resolvedMathjaxUrl e)) := by
    rw [lookupKey_mergeInto_of_notin _ _ _ hfrag,
      foldlM_fullUrlStep_lookup_ne e _ e.trait_names _ pc2 hpc2 hfull,
      foldl_traitStep_lookup e _ e.trait_names _ htraits,
      lookup_configAfterMathjax_fullMathjaxUrl]
  refine ⟨mergeInto pc2 e.ext_fragment, by simp [buildPageConfig, hpc2, hhook],
    ?_, ?_, ?_⟩
  · intro habs
    rw [hlook]
    simp [resolvedMathjaxUrl, habs]
  · intro habs hstart
    rw [hlook]
    simp [resolvedMathjaxUrl, habs, hstart]
  · intro habs hstart
    rw [hlook]
    simp [resolvedMathjaxUrl, habs, hstart]

/-- A concrete environment whose configured MathJax URL is not absolute
(the absolute test used is "starts with http") and does not start with
the base URL "/b/". -/
def envMathjaxRel : Env :=
  ⟨[], "7.0.0", "/", "/b/", false, "tok", "notebook", false,
    "/", "/", fun s => s, fun _ _ => Except.ok "",
    "cfg", "mathjax/M.js",
    fun s => startsWithStr s "http", fun s => startsWithStr s "http",
    "/jp", [], fun _ => Value.str "",
    [], none⟩

/-- Witness for C4 (amended): the relative MathJax URL "mathjax/M.js"
is joined onto the base URL "/b/". -/
theorem fullMathjaxUrl_entry_witness :
    ∃ pc, (buildPageConfig envMathjaxRel).config = some pc ∧
      lookupKey pc "fullMathjaxUrl" =
        some (Value.str (ujoin ["/b/", "mathjax/M.js"])) := by
  obtain ⟨pc, hpc, -, hrel, -⟩ := fullMathjaxUrl_entry envMathjaxRel
    (by simp [envMathjaxRel]) (by simp [envMathjaxRel]) rfl rfl
    (by simp [envMathjaxRel])
  refine ⟨pc, hpc, ?_⟩
  rw [hrel rfl rfl]
  rfl

/-- A concrete environment refuting C4 as stated: the configured
MathJax URL "/x/m" is not absolute (the absoluteness test of this
environment holds of no string) but starts with the base URL "/x/", so
the source leaves it unchanged instead of joining it. -/
def envMathjax : Env :=
  ⟨[], "7.0.0", "/", "/x/", false, "tok", "notebook", false,
    "/", "/", fun s => s, fun _ _ => Except.ok "",
    "cfg", "/x/m",
    fun _ => false, fun _ => false,
    "/jp", [], fun _ => Value.str "",
    [], none⟩

/-- Counterexample for C4: in `envMathjax` the MathJax URL is not
absolute, yet the "fullMathjaxUrl" entry is the unchanged input "/x/m"
and not the base URL joined with the input (which would be "/x/x/m"). -/
theorem fullMathjaxUrl_counterexample :
    envMathjax.url_is_absolute envMathjax.mathjax_url = false ∧
    (∃ pc, (buildPageConfig envMathjax).config = some pc ∧
      lookupKey pc "fullMathjaxUrl" = some (Value.str "/x/m")) ∧
    ujoin [envMathjax.self_base_url, envMathjax.mathjax_url] ≠ "/x/m" := by
  refine ⟨rfl, ⟨configAfterMathjax envMathjax, ?_, ?_⟩, by decide⟩
  · simp [buildPageConfig, envMathjax, mergeInto_nil]
  · rw [lookup_configAfterMathjax_fullMathjaxUrl]
    rfl

/-- C5: for every known trait name ending in "_url", the built
PageConfig holds, under the camelCase form of "full_" + name, the
trait's raw string value when that value is already a URL, and
otherwise the base URL joined with the raw value.  The hypotheses state
that the raw value is a string (anything else makes the source raise),
that no other trait collides on the same camelCase key, and that the
later layers do not override the entry. -/
theorem fullUrl_trait_entry (e : Env) (name s : String)
    (hmem : name ∈ e.trait_names)
    (hurl : endsWithStr name "_url" = true)
    (hval : e.trait_value name = Value.str s)
    (huniq : ∀ n ∈ e.trait_names, endsWithStr n "_url" = true →
      camelCase ("full_" ++ n) = camelCase ("full_" ++ name) → n = name)
    (hfrag : lookupKey e.ext_fragment (camelCase ("full_" ++ name)) = none)
    (hhook : e.page_config_hook = none)
    (htotal : ∀ n ∈ e.trait_names, endsWithStr n "_url" = true →
      ∃ t, e.trait_value n = Value.str t) :
    ∃ pc, (buildPageConfig e).config = some pc ∧
      lookupKey pc (camelCase ("full_" ++ name)) =
        some (Value.str (if e.is_url s then s else ujoin [e.base_url, s])) := by
  obtain ⟨pc2, hpc2⟩ := foldlM_fullUrlStep_total e e.trait_names
    (List.foldl (traitStep e) (configAfterMathjax e) e.trait_names) htotal
  refine ⟨mergeInto pc2 e.ext_fragment,
    by simp [buildPageConfig, hpc2, hhook], ?_⟩
  rw [lookupKey_mergeInto_of_notin _ _ _ hfrag]
  refine foldlM_fullUrlStep_sets e (camelCase ("full_" ++ name))
    (Value.str (if e.is_url s then s else ujoin [e.base_url, s]))
    e.trait_names _ pc2 hpc2 ?_ ⟨name, hmem, hurl, rfl⟩
  intro n hn hu hk s2 hs2
  have hne : n = name := huniq n hn hu hk
  subst hne
  rw [hval] at hs2
  injection hs2 with hs2
  subst hs2
  rfl

/-- A concrete environment with the single URL-suffixed trait
"themes_url", whose raw value "lab/api/themes" is not a URL. -/
def envThemes : Env :=
  ⟨[], "7.0.0", "/", "/", false, "tok", "notebook", false,
    "/", "/", fun s => s, fun _ _ => Except.ok "",
    "cfg", "https://cdn.example/MathJax.js",
    fun _ => true, fun s => startsWithStr s "http",
    "/jp", ["themes_url"], fun _ => Value.str "lab/api/themes",
    [], none⟩

/-- Witness for C5: the trait "themes_url" with raw value
"lab/api/themes" produces the entry "fullThemesUrl" holding the base
URL joined with the raw value. -/
theorem fullUrl_trait_entry_witness :
    ∃ pc, (buildPageConfig envThemes).config = some pc ∧
      lookupKey pc (camelCase ("full_" ++ "themes_url")) =
        some (Value.str (ujoin ["/", "lab/api/themes"])) := by
  obtain ⟨pc, hpc, hlook⟩ := fullUrl_trait_entry envThemes "themes_url"
    "lab/api/themes" (by simp [envThemes]) rfl rfl
    (by intro n hn _ _; simpa [envThemes] using hn)
    rfl rfl (by intro n hn _; exact ⟨"lab/api/themes", rfl⟩)
  refine ⟨pc, hpc, ?_⟩
  rw [hlook]
  rfl

end AppImprovements
